import Mathlib

/-!
Shallow embedding of the Serum-Enterprises `Cache` module (`src/index.js`):
an in-memory, byte-capacity-bounded LFU cache that stores byte buffers
under string keys.  Buffers are modelled as `List Nat` (only their bytes and
lengths matter); the two JavaScript `Map` fields (`#data`, `#accessCount`)
are modelled as insertion-ordered association lists, since a JS `Map`
iterates in key-insertion order, `Map.set` on an existing key keeps its
position, and `Map.delete` removes the unique entry for the key.
The numeric field `#size` is modelled as `Int` (JS number arithmetic on
integer byte counts is exact).
-/

namespace CacheModel

/-- Byte buffer (Node `Buffer`): we keep the byte list so that values can be
compared after a round trip; `length` is the byte length. -/
abbrev Buf := List Nat

/-- JS `Map.get`: the value stored for `k`, or `none`. -/
def mapLookup {α : Type} (k : String) : List (String × α) → Option α
  | [] => none
  | p :: rest => if p.1 = k then some p.2 else mapLookup k rest

/-- JS `Map.has`. -/
def mapHas {α : Type} (k : String) (m : List (String × α)) : Bool :=
  (mapLookup k m).isSome

/-- JS `Map.set`: when `k` is present, update its value in place (the entry
keeps its position in iteration order); otherwise append a new entry at the
end. -/
def mapSet {α : Type} (k : String) (v : α) : List (String × α) → List (String × α)
  | [] => [(k, v)]
  | p :: rest => if p.1 = k then (k, v) :: rest else p :: mapSet k v rest

/-- JS `Map.delete`: remove the entry for `k`.  Keys are unique in a JS map,
so removing every occurrence is the same operation. -/
def mapDelete {α : Type} (k : String) (m : List (String × α)) : List (String × α) :=
  m.filter (fun p => p.1 ≠ k)

/-- The state of a `Cache` instance: the four private fields of the class. -/
structure Cache where
  maxSize : Nat
  size : Int
  data : List (String × Buf)
  accessCount : List (String × Nat)
deriving DecidableEq

/-- The cache produced by `new Cache(maxSize)` once the argument check has
passed: empty maps and `size = 0`. -/
def Cache.new (maxSize : Nat) : Cache := ⟨maxSize, 0, [], []⟩

/-- Private method `#hasCapacity(value)`: `this.#maxSize - this.#size >= value`. -/
def Cache.hasCapacity (c : Cache) (value : Nat) : Bool :=
  decide ((c.maxSize : Int) - c.size ≥ (value : Int))

/-- Public method `delete(key)` (after its type check): returns `false` when
the key is absent, otherwise subtracts the stored byte length from `#size`
and removes the entry from both `#data` and `#accessCount`. -/
def Cache.delete (c : Cache) (key : String) : Bool × Cache :=
  match mapLookup key c.data with
  | none => (false, c)
  | some v =>
    (true, { c with size := c.size - v.length,
                    data := mapDelete key c.data,
                    accessCount := mapDelete key c.accessCount })

/-- Comparison used by `#free`: the JS comparator `(a, b) => a[1] - b[1]`
orders entries by their access count. -/
def cntLE (a b : String × Nat) : Prop := a.2 ≤ b.2

instance : DecidableRel cntLE := fun a b => inferInstanceAs (Decidable (a.2 ≤ b.2))

instance : IsTotal (String × Nat) cntLE := ⟨fun a b => Nat.le_total a.2 b.2⟩

instance : IsTrans (String × Nat) cntLE := ⟨fun _ _ _ h h2 => Nat.le_trans h h2⟩

/-- The `while` loop of `#free`: shift entries off the sorted access-count
array, deleting each key, until the needed size fits or the array is empty. -/
def Cache.freeLoop (c : Cache) (needed : Nat) : List (String × Nat) → Cache
  | [] => c
  | p :: rest =>
    if c.hasCapacity needed then c
    else Cache.freeLoop (c.delete p.1).2 needed rest

/-- Private method `#free(neededSize)`: return early when the value already
fits, otherwise sort the access counts ascending (JS `Array.prototype.sort`
is stable, which `List.insertionSort` with `cntLE` reproduces exactly) and
run the deletion loop. -/
def Cache.free (c : Cache) (needed : Nat) : Cache :=
  if c.hasCapacity needed then c
  else c.freeLoop needed (List.insertionSort cntLE c.accessCount)

/-- Public method `get(key)` (after its type check): `none` when absent;
otherwise bump the access count and return the stored value.  The JS code
computes `accessCount.get(key) + 1`; in every reachable state a key present
in `#data` has an access-count record, so the `getD 0` default is never
taken (proved below as an invariant). -/
def Cache.get (c : Cache) (key : String) : Option Buf × Cache :=
  match mapLookup key c.data with
  | none => (none, c)
  | some v =>
    (some v,
     { c with accessCount :=
        mapSet key ((mapLookup key c.accessCount).getD 0 + 1) c.accessCount })

/-- Public method `set(key, value)` (after its type checks): a silent no-op
when the value can never fit; otherwise capture the existing access count
(0 when there is no record), delete the old entry, evict until the value
fits, then insert the new entry with the captured count. -/
def Cache.set (c : Cache) (key : String) (value : Buf) : Cache :=
  if c.maxSize < value.length then c
  else
    let accessCount := (mapLookup key c.accessCount).getD 0
    let c1 := (c.delete key).2
    let c2 := c1.free value.length
    { c2 with size := c2.size + value.length,
              data := mapSet key value c2.data,
              accessCount := mapSet key accessCount c2.accessCount }

/-- Public method `rename(oldKey, newKey)` (after its type checks).  Note
that the JS code deletes `oldKey` from `#data` only: its `#accessCount`
record is left behind. -/
def Cache.rename (c : Cache) (oldKey newKey : String) : Bool × Cache :=
  if mapHas oldKey c.data = false then (false, c)
  else if mapHas newKey c.data = true then (false, c)
  else
    (true,
     { c with
        accessCount :=
          mapSet newKey ((mapLookup oldKey c.accessCount).getD 0) c.accessCount,
        data := mapDelete oldKey (mapSet newKey ((mapLookup oldKey c.data).getD []) c.data) })

/-- Public method `has(key)` (after its type check). -/
def Cache.has (c : Cache) (key : String) : Bool := mapHas key c.data

/-- Public method `keys()`: the keys of `#data` in iteration order. -/
def Cache.keys (c : Cache) : List String := c.data.map Prod.fst

/-- Public method `clear()`. -/
def Cache.clear (c : Cache) : Cache :=
  { c with size := 0, data := [], accessCount := [] }

/-- Sum of the byte lengths of all stored values. -/
def sumLen (d : List (String × Buf)) : Int :=
  (d.map (fun p => (p.2.length : Int))).sum

/-! ### Dynamically-typed surface

JavaScript callers can pass arguments of any type; every public method
checks its arguments first and throws a `TypeError` before touching any
state.  We model an arbitrary JS value and wrap each method: a thrown error
is an `Except.error` paired with the unchanged cache state. -/

/-- An arbitrary JavaScript value, as far as the type checks in the source
can distinguish them: `int n` is a number that is a safe integer,
`nonIntNum` any other number (fractional, `NaN`, `Infinity`), `other`
anything else (`null`, `undefined`, objects, ...). -/
inductive JSVal where
  | str (s : String)
  | int (n : Int)
  | nonIntNum
  | buf (b : Buf)
  | other
deriving DecidableEq

def JSVal.isStr : JSVal → Bool
  | .str _ => true
  | _ => false

def JSVal.isBuf : JSVal → Bool
  | .buf _ => true
  | _ => false

/-- The constructor `new Cache(maxSize)`: `Number.isSafeInteger(maxSize)`
must hold and `maxSize` must be nonnegative, otherwise a `TypeError` is
thrown. -/
def Cache.construct (maxSize : JSVal) : Except String Cache :=
  match maxSize with
  | .int n =>
    if n < 0 then .error "Expected maxSize to be a positive Integer"
    else .ok (Cache.new n.toNat)
  | _ => .error "Expected maxSize to be a positive Integer"

/-- `get` as called from JS: the key type check runs before anything else. -/
def Cache.getJS (c : Cache) (key : JSVal) : Except String (Option Buf) × Cache :=
  match key with
  | .str s => ((c.get s).1 |> .ok, (c.get s).2)
  | _ => (.error "Expected key to be a String", c)

/-- `set` as called from JS: key checked first, then the value. -/
def Cache.setJS (c : Cache) (key value : JSVal) : Except String Unit × Cache :=
  match key with
  | .str s =>
    match value with
    | .buf b => (.ok (), c.set s b)
    | _ => (.error "Expected value to be an instance of Buffer", c)
  | _ => (.error "Expected key to be a String", c)

/-- `rename` as called from JS: `oldKey` checked first, then `newKey`. -/
def Cache.renameJS (c : Cache) (oldKey newKey : JSVal) : Except String Bool × Cache :=
  match oldKey with
  | .str o =>
    match newKey with
    | .str n => ((c.rename o n).1 |> .ok, (c.rename o n).2)
    | _ => (.error "Expected newKey to be a String", c)
  | _ => (.error "Expected oldKey to be a String", c)

/-- `has` as called from JS. -/
def Cache.hasJS (c : Cache) (key : JSVal) : Except String Bool × Cache :=
  match key with
  | .str s => (.ok (c.has s), c)
  | _ => (.error "Expected key to be a String", c)

/-- `delete` as called from JS. -/
def Cache.deleteJS (c : Cache) (key : JSVal) : Except String Bool × Cache :=
  match key with
  | .str s => ((c.delete s).1 |> .ok, (c.delete s).2)
  | _ => (.error "Expected key to be a String", c)

/-! ### Association-map lemmas -/

theorem mapLookup_mapSet_self {α : Type} (k : String) (v : α) (m : List (String × α)) :
    mapLookup k (mapSet k v m) = some v := by
  induction m with
  | nil => simp [mapSet, mapLookup]
  | cons p rest ih =>
    by_cases h : p.1 = k
    · simp [mapSet, h, mapLookup]
    · simp [mapSet, h, mapLookup, ih]

theorem mapLookup_mapSet_ne {α : Type} {a k : String} (v : α) (m : List (String × α))
    (h : a ≠ k) : mapLookup a (mapSet k v m) = mapLookup a m := by
  have hka : k ≠ a := h.symm
  induction m with
  | nil => simp [mapSet, mapLookup, hka]
  | cons p rest ih =>
    by_cases hp : p.1 = k
    · have hpa : p.1 ≠ a := by rw [hp]; exact hka
      simp only [mapSet, if_pos hp, mapLookup, if_neg hka, if_neg hpa]
    · simp only [mapSet, if_neg hp, mapLookup, ih]

theorem mapLookup_mapDelete_self {α : Type} (k : String) (m : List (String × α)) :
    mapLookup k (mapDelete k m) = none := by
  induction m with
  | nil => rfl
  | cons p rest ih =>
    by_cases hp : p.1 = k
    · have h2 : mapDelete k (p :: rest) = mapDelete k rest := by
        simp [mapDelete, List.filter_cons, hp]
      rw [h2, ih]
    · have h2 : mapDelete k (p :: rest) = p :: mapDelete k rest := by
        simp [mapDelete, List.filter_cons, hp]
      rw [h2]
      simp only [mapLookup, if_neg hp, ih]

theorem mapLookup_mapDelete_ne {α : Type} {a k : String} (m : List (String × α))
    (h : a ≠ k) : mapLookup a (mapDelete k m) = mapLookup a m := by
  induction m with
  | nil => rfl
  | cons p rest ih =>
    by_cases hp : p.1 = k
    · have hpa : p.1 ≠ a := by rw [hp]; exact h.symm
      have h2 : mapDelete k (p :: rest) = mapDelete k rest := by
        simp [mapDelete, List.filter_cons, hp]
      rw [h2, ih]
      simp only [mapLookup, if_neg hpa]
    · have h2 : mapDelete k (p :: rest) = p :: mapDelete k rest := by
        simp [mapDelete, List.filter_cons, hp]
      rw [h2]
      simp only [mapLookup, ih]

theorem mapHas_iff_mem_keys {α : Type} (k : String) (m : List (String × α)) :
    mapHas k m = true ↔ k ∈ m.map Prod.fst := by
  induction m with
  | nil => simp [mapHas, mapLookup]
  | cons p rest ih =>
    by_cases hp : p.1 = k
    · simp [mapHas, mapLookup, hp]
    · rw [List.map_cons, List.mem_cons]
      rw [mapHas] at ih ⊢
      rw [mapLookup, if_neg hp, ih]
      constructor
      · exact fun h1 => Or.inr h1
      · rintro (h1 | h1)
        · exact absurd h1.symm hp
        · exact h1

theorem mem_keys_mapSet {α : Type} (a k : String) (v : α) (m : List (String × α)) :
    a ∈ (mapSet k v m).map Prod.fst ↔ a = k ∨ a ∈ m.map Prod.fst := by
  induction m with
  | nil => simp [mapSet]
  | cons p rest ih =>
    by_cases hp : p.1 = k
    · simp only [mapSet, if_pos hp, List.map_cons, List.mem_cons]
      rw [hp]
      tauto
    · simp only [mapSet, if_neg hp, List.map_cons, List.mem_cons, ih]
      tauto

theorem keys_mapDelete {α : Type} (k : String) (m : List (String × α)) :
    (mapDelete k m).map Prod.fst = (m.map Prod.fst).filter (fun a => a ≠ k) := by
  induction m with
  | nil => rfl
  | cons p rest ih =>
    by_cases hp : p.1 = k
    · have h2 : mapDelete k (p :: rest) = mapDelete k rest := by
        simp [mapDelete, List.filter_cons, hp]
      rw [h2, ih, List.map_cons, List.filter_cons]
      simp [hp]
    · have h2 : mapDelete k (p :: rest) = p :: mapDelete k rest := by
        simp [mapDelete, List.filter_cons, hp]
      rw [h2, List.map_cons, List.map_cons, List.filter_cons]
      simp [hp, ih]

theorem keys_mapSet_of_mem {α : Type} (k : String) (v : α) (m : List (String × α))
    (h : k ∈ m.map Prod.fst) : (mapSet k v m).map Prod.fst = m.map Prod.fst := by
  induction m with
  | nil => simp at h
  | cons p rest ih =>
    by_cases hp : p.1 = k
    · simp only [mapSet, if_pos hp, List.map_cons]
      rw [hp]
    · rw [List.map_cons, List.mem_cons] at h
      rcases h with h1 | h1
      · exact absurd h1.symm hp
      · simp only [mapSet, if_neg hp, List.map_cons, ih h1]

theorem mapSet_of_not_mem {α : Type} (k : String) (v : α) (m : List (String × α))
    (h : k ∉ m.map Prod.fst) : mapSet k v m = m ++ [(k, v)] := by
  induction m with
  | nil => simp [mapSet]
  | cons p rest ih =>
    rw [List.map_cons, List.mem_cons] at h
    push_neg at h
    have hp : p.1 ≠ k := fun h2 => h.1 h2.symm
    simp only [mapSet, if_neg hp, List.cons_append, ih h.2]

theorem nodup_keys_mapSet {α : Type} (k : String) (v : α) (m : List (String × α))
    (h : (m.map Prod.fst).Nodup) : ((mapSet k v m).map Prod.fst).Nodup := by
  induction m with
  | nil => simp [mapSet]
  | cons p rest ih =>
    rw [List.map_cons, List.nodup_cons] at h
    by_cases hp : p.1 = k
    · simp only [mapSet, if_pos hp, List.map_cons, List.nodup_cons]
      exact ⟨hp ▸ h.1, h.2⟩
    · simp only [mapSet, if_neg hp, List.map_cons, List.nodup_cons]
      refine ⟨?_, ih h.2⟩
      intro hmem
      rcases (mem_keys_mapSet p.1 k v rest).1 hmem with h1 | h1
      · exact hp h1
      · exact h.1 h1

theorem nodup_keys_mapDelete {α : Type} (k : String) (m : List (String × α))
    (h : (m.map Prod.fst).Nodup) : ((mapDelete k m).map Prod.fst).Nodup := by
  rw [keys_mapDelete]
  exact h.filter _

theorem mapLookup_eq_some_of_mem {α : Type} {k : String} {v : α} {m : List (String × α)}
    (hnd : (m.map Prod.fst).Nodup) (h : (k, v) ∈ m) : mapLookup k m = some v := by
  induction m with
  | nil => simp at h
  | cons p rest ih =>
    rw [List.map_cons, List.nodup_cons] at hnd
    rcases List.mem_cons.1 h with h1 | h1
    · rw [← h1]
      simp [mapLookup]
    · have hp : p.1 ≠ k := by
        intro h2
        apply hnd.1
        rw [h2]
        exact List.mem_map.2 ⟨(k, v), h1, rfl⟩
      simp only [mapLookup, if_neg hp]
      exact ih hnd.2 h1

theorem mem_of_mapLookup_eq_some {α : Type} {k : String} {v : α} {m : List (String × α)}
    (h : mapLookup k m = some v) : (k, v) ∈ m := by
  induction m with
  | nil => simp [mapLookup] at h
  | cons p rest ih =>
    by_cases hp : p.1 = k
    · simp only [mapLookup, if_pos hp, Option.some.injEq] at h
      cases p with
      | mk a b =>
        simp only at hp h
        rw [hp, h]
        exact List.mem_cons_self _ _
    · simp only [mapLookup, if_neg hp] at h
      exact List.mem_cons_of_mem _ (ih h)

theorem mapLookup_isSome_of_mem_keys {α : Type} {k : String} {m : List (String × α)}
    (h : k ∈ m.map Prod.fst) : ∃ v, mapLookup k m = some v := by
  have h2 := (mapHas_iff_mem_keys k m).2 h
  rw [mapHas, Option.isSome_iff_exists] at h2
  exact h2

/-! ### Size-sum lemmas -/

theorem sumLen_nil : sumLen [] = 0 := rfl

theorem sumLen_append (d e : List (String × Buf)) :
    sumLen (d ++ e) = sumLen d + sumLen e := by
  simp [sumLen]

theorem sumLen_nonneg (d : List (String × Buf)) : 0 ≤ sumLen d := by
  induction d with
  | nil => simp [sumLen]
  | cons p rest ih =>
    have : sumLen (p :: rest) = (p.2.length : Int) + sumLen rest := by simp [sumLen]
    rw [this]
    positivity

theorem sumLen_cons (p : String × Buf) (rest : List (String × Buf)) :
    sumLen (p :: rest) = (p.2.length : Int) + sumLen rest := by
  simp [sumLen]

theorem mapDelete_of_not_mem {α : Type} {k : String} {m : List (String × α)}
    (h : k ∉ m.map Prod.fst) : mapDelete k m = m := by
  refine List.filter_eq_self.2 ?_
  intro a ha
  have : a.1 ≠ k := by
    intro h2
    exact h (h2 ▸ List.mem_map.2 ⟨a, ha, rfl⟩)
  simpa using this

theorem sumLen_mapDelete {k : String} {v : Buf} {d : List (String × Buf)}
    (hnd : (d.map Prod.fst).Nodup) (h : mapLookup k d = some v) :
    sumLen (mapDelete k d) = sumLen d - (v.length : Int) := by
  induction d with
  | nil => simp [mapLookup] at h
  | cons p rest ih =>
    simp only [List.map_cons, List.nodup_cons] at hnd
    by_cases hp : p.1 = k
    · simp only [mapLookup, if_pos hp, Option.some.injEq] at h
      have hk : k ∉ rest.map Prod.fst := hp ▸ hnd.1
      have hdel : mapDelete k (p :: rest) = rest := by
        have h3 : mapDelete k (p :: rest) = mapDelete k rest := by
          simp [mapDelete, List.filter_cons, hp]
        rw [h3, mapDelete_of_not_mem hk]
      rw [hdel, sumLen_cons, h]
      ring
    · have hdel : mapDelete k (p :: rest) = p :: mapDelete k rest := by
        simp [mapDelete, List.filter_cons, hp]
      simp only [mapLookup, if_neg hp] at h
      rw [hdel, sumLen_cons, sumLen_cons, ih hnd.2 h]
      ring

/-! ### Case equations for the operations -/

theorem delete_of_lookup_none {c : Cache} {k : String} (h : mapLookup k c.data = none) :
    c.delete k = (false, c) := by
  simp [Cache.delete, h]

theorem delete_of_lookup_some {c : Cache} {k : String} {v : Buf}
    (h : mapLookup k c.data = some v) :
    c.delete k = (true, { c with size := c.size - v.length,
                                 data := mapDelete k c.data,
                                 accessCount := mapDelete k c.accessCount }) := by
  simp [Cache.delete, h]

theorem get_of_lookup_none {c : Cache} {k : String} (h : mapLookup k c.data = none) :
    c.get k = (none, c) := by
  simp [Cache.get, h]

theorem get_of_lookup_some {c : Cache} {k : String} {v : Buf}
    (h : mapLookup k c.data = some v) :
    c.get k = (some v,
      { c with accessCount :=
         mapSet k ((mapLookup k c.accessCount).getD 0 + 1) c.accessCount }) := by
  simp [Cache.get, h]

theorem rename_of_old_absent {c : Cache} {oldKey newKey : String}
    (h : mapHas oldKey c.data = false) : c.rename oldKey newKey = (false, c) := by
  simp [Cache.rename, h]

theorem rename_of_new_present {c : Cache} {oldKey newKey : String}
    (h1 : mapHas oldKey c.data = true) (h2 : mapHas newKey c.data = true) :
    c.rename oldKey newKey = (false, c) := by
  simp [Cache.rename, h1, h2]

theorem rename_of_success {c : Cache} {oldKey newKey : String}
    (h1 : mapHas oldKey c.data = true) (h2 : mapHas newKey c.data = false) :
    c.rename oldKey newKey =
      (true,
       { c with
          accessCount :=
            mapSet newKey ((mapLookup oldKey c.accessCount).getD 0) c.accessCount,
          data := mapDelete oldKey
            (mapSet newKey ((mapLookup oldKey c.data).getD []) c.data) }) := by
  simp [Cache.rename, h1, h2]

/-! ### Simple state lemmas about delete, freeLoop and free -/

theorem delete_maxSize (c : Cache) (k : String) : (c.delete k).2.maxSize = c.maxSize := by
  cases hl : mapLookup k c.data with
  | none => rw [delete_of_lookup_none hl]
  | some v => rw [delete_of_lookup_some hl]

theorem delete_lookup_self_data (c : Cache) (k : String) :
    mapLookup k (c.delete k).2.data = none := by
  cases hl : mapLookup k c.data with
  | none => rw [delete_of_lookup_none hl]; exact hl
  | some v => rw [delete_of_lookup_some hl]; exact mapLookup_mapDelete_self k c.data

theorem mapHas_delete_imp {c : Cache} {a k : String}
    (h : mapHas a (c.delete k).2.data = true) : a ≠ k ∧ mapHas a c.data = true := by
  cases hl : mapLookup k c.data with
  | none =>
    rw [delete_of_lookup_none hl] at h
    refine ⟨?_, h⟩
    intro hak
    rw [mapHas, hak, hl] at h
    simp at h
  | some v =>
    rw [delete_of_lookup_some hl] at h
    by_cases hak : a = k
    · rw [mapHas, hak] at h
      simp only [mapLookup_mapDelete_self] at h
      simp at h
    · rw [mapHas, mapLookup_mapDelete_ne _ hak] at h
      exact ⟨hak, h⟩

theorem mapHas_delete_imp_ac {c : Cache} {a k : String}
    (h : mapHas a (c.delete k).2.accessCount = true) : mapHas a c.accessCount = true := by
  cases hl : mapLookup k c.data with
  | none => rw [delete_of_lookup_none hl] at h; exact h
  | some v =>
    rw [delete_of_lookup_some hl] at h
    by_cases hak : a = k
    · rw [mapHas, hak] at h
      simp only [mapLookup_mapDelete_self] at h
      simp at h
    · rw [mapHas, mapLookup_mapDelete_ne _ hak] at h
      exact h

theorem delete_lookup_none_data {c : Cache} {a k : String}
    (h : mapLookup a c.data = none) : mapLookup a (c.delete k).2.data = none := by
  cases hl : mapLookup k c.data with
  | none => rw [delete_of_lookup_none hl]; exact h
  | some v =>
    rw [delete_of_lookup_some hl]
    by_cases hak : a = k
    · rw [hak]; exact mapLookup_mapDelete_self k c.data
    · rw [mapLookup_mapDelete_ne _ hak]; exact h

theorem delete_lookup_none_ac {c : Cache} {a k : String}
    (h : mapLookup a c.accessCount = none) :
    mapLookup a (c.delete k).2.accessCount = none := by
  cases hl : mapLookup k c.data with
  | none => rw [delete_of_lookup_none hl]; exact h
  | some v =>
    rw [delete_of_lookup_some hl]
    by_cases hak : a = k
    · rw [hak]; exact mapLookup_mapDelete_self k c.accessCount
    · rw [mapLookup_mapDelete_ne _ hak]; exact h

/-! ### The state invariant and its preservation -/

/-- Properties holding in every reachable cache state: keys of both maps are
unique, every stored key has an access-count record, `#size` is exactly the
sum of the stored byte lengths, and `#size` never exceeds `#maxSize`. -/
structure Inv (c : Cache) : Prop where
  nodupData : (c.data.map Prod.fst).Nodup
  nodupAC : (c.accessCount.map Prod.fst).Nodup
  subset : ∀ k, mapHas k c.data = true → mapHas k c.accessCount = true
  sizeEq : c.size = sumLen c.data
  sizeLe : c.size ≤ (c.maxSize : Int)

theorem inv_new (maxSize : Nat) : Inv (Cache.new maxSize) := by
  refine ⟨by simp [Cache.new], by simp [Cache.new], ?_, by simp [Cache.new, sumLen], ?_⟩
  · intro k h
    simp [Cache.new, mapHas, mapLookup] at h
  · simp [Cache.new]

theorem inv_delete {c : Cache} (h : Inv c) (k : String) : Inv (c.delete k).2 := by
  cases hl : mapLookup k c.data with
  | none => rw [delete_of_lookup_none hl]; exact h
  | some v =>
    rw [delete_of_lookup_some hl]
    refine ⟨nodup_keys_mapDelete _ _ h.nodupData, nodup_keys_mapDelete _ _ h.nodupAC,
            ?_, ?_, ?_⟩
    · intro a ha
      by_cases hak : a = k
      · rw [mapHas, hak] at ha
        simp only [mapLookup_mapDelete_self] at ha
        simp at ha
      · rw [mapHas, mapLookup_mapDelete_ne _ hak] at ha
        have h2 := h.subset a ha
        rw [mapHas, mapLookup_mapDelete_ne _ hak]
        exact h2
    · simp only
      rw [sumLen_mapDelete h.nodupData hl, h.sizeEq]
    · simp only
      have h1 := h.sizeLe
      have h2 : (0 : Int) ≤ (v.length : Int) := by positivity
      linarith

theorem delete_size_le (c : Cache) (k : String) : (c.delete k).2.size ≤ c.size := by
  cases hl : mapLookup k c.data with
  | none => rw [delete_of_lookup_none hl]
  | some v =>
    rw [delete_of_lookup_some hl]
    simp only
    have h2 : (0 : Int) ≤ (v.length : Int) := by positivity
    linarith

theorem inv_freeLoop {c : Cache} (h : Inv c) (needed : Nat) (S : List (String × Nat)) :
    Inv (c.freeLoop needed S) := by
  induction S generalizing c with
  | nil => exact h
  | cons p rest ih =>
    rw [Cache.freeLoop]
    by_cases hcap : c.hasCapacity needed = true
    · rw [if_pos hcap]; exact h
    · rw [if_neg hcap]; exact ih (inv_delete h p.1)

theorem freeLoop_maxSize (c : Cache) (needed : Nat) (S : List (String × Nat)) :
    (c.freeLoop needed S).maxSize = c.maxSize := by
  induction S generalizing c with
  | nil => rfl
  | cons p rest ih =>
    rw [Cache.freeLoop]
    by_cases hcap : c.hasCapacity needed = true
    · rw [if_pos hcap]
    · rw [if_neg hcap, ih]
      exact delete_maxSize c p.1

theorem freeLoop_lookup_none_data {c : Cache} {a : String} (needed : Nat)
    {S : List (String × Nat)} (h : mapLookup a c.data = none) :
    mapLookup a (c.freeLoop needed S).data = none := by
  induction S generalizing c with
  | nil => exact h
  | cons p rest ih =>
    rw [Cache.freeLoop]
    by_cases hcap : c.hasCapacity needed = true
    · rw [if_pos hcap]; exact h
    · rw [if_neg hcap]; exact ih (delete_lookup_none_data h)

theorem freeLoop_lookup_none_ac {c : Cache} {a : String} (needed : Nat)
    {S : List (String × Nat)} (h : mapLookup a c.accessCount = none) :
    mapLookup a (c.freeLoop needed S).accessCount = none := by
  induction S generalizing c with
  | nil => exact h
  | cons p rest ih =>
    rw [Cache.freeLoop]
    by_cases hcap : c.hasCapacity needed = true
    · rw [if_pos hcap]; exact h
    · rw [if_neg hcap]; exact ih (delete_lookup_none_ac h)

theorem freeLoop_capacity_or_nil {c : Cache} (needed : Nat) {S : List (String × Nat)}
    (hsub : ∀ a, mapHas a c.data = true → a ∈ S.map Prod.fst) :
    (c.freeLoop needed S).hasCapacity needed = true ∨ (c.freeLoop needed S).data = [] := by
  induction S generalizing c with
  | nil =>
    right
    rw [Cache.freeLoop]
    by_contra hne
    obtain ⟨p, rest, hd⟩ : ∃ p rest, c.data = p :: rest := by
      cases hd : c.data with
      | nil => exact absurd hd hne
      | cons p rest => exact ⟨p, rest, rfl⟩
    have hmem : mapHas p.1 c.data = true := by
      rw [mapHas, hd, mapLookup]
      simp
    simpa using hsub p.1 hmem
  | cons p rest ih =>
    rw [Cache.freeLoop]
    by_cases hcap : c.hasCapacity needed = true
    · rw [if_pos hcap]; left; exact hcap
    · rw [if_neg hcap]
      refine ih ?_
      intro a ha
      have h2 := mapHas_delete_imp ha
      have h3 := hsub a h2.2
      rw [List.map_cons, List.mem_cons] at h3
      rcases h3 with h3 | h3
      · exact absurd h3 h2.1
      · exact h3

theorem inv_free {c : Cache} (h : Inv c) (needed : Nat) : Inv (c.free needed) := by
  rw [Cache.free]
  by_cases hcap : c.hasCapacity needed = true
  · rw [if_pos hcap]; exact h
  · rw [if_neg hcap]; exact inv_freeLoop h needed _

theorem free_maxSize (c : Cache) (needed : Nat) : (c.free needed).maxSize = c.maxSize := by
  rw [Cache.free]
  by_cases hcap : c.hasCapacity needed = true
  · rw [if_pos hcap]
  · rw [if_neg hcap]; exact freeLoop_maxSize c needed _

theorem free_lookup_none_data {c : Cache} {a : String} (needed : Nat)
    (h : mapLookup a c.data = none) : mapLookup a (c.free needed).data = none := by
  rw [Cache.free]
  by_cases hcap : c.hasCapacity needed = true
  · rw [if_pos hcap]; exact h
  · rw [if_neg hcap]; exact freeLoop_lookup_none_data needed h

theorem free_lookup_none_ac {c : Cache} {a : String} (needed : Nat)
    (h : mapLookup a c.accessCount = none) :
    mapLookup a (c.free needed).accessCount = none := by
  rw [Cache.free]
  by_cases hcap : c.hasCapacity needed = true
  · rw [if_pos hcap]; exact h
  · rw [if_neg hcap]; exact freeLoop_lookup_none_ac needed h

theorem free_capacity_or_nil {c : Cache} (h : Inv c) (needed : Nat) :
    (c.free needed).hasCapacity needed = true ∨ (c.free needed).data = [] := by
  rw [Cache.free]
  by_cases hcap : c.hasCapacity needed = true
  · rw [if_pos hcap]; left; exact hcap
  · rw [if_neg hcap]
    refine freeLoop_capacity_or_nil needed ?_
    intro a ha
    have h2 := h.subset a ha
    have h3 := (mapHas_iff_mem_keys a c.accessCount).1 h2
    have hperm : List.Perm (List.insertionSort cntLE c.accessCount) c.accessCount :=
      List.perm_insertionSort cntLE c.accessCount
    exact ((hperm.map Prod.fst).mem_iff).2 h3

theorem set_of_oversize {c : Cache} {k : String} {v : Buf} (h : c.maxSize < v.length) :
    c.set k v = c := by
  simp [Cache.set, h]

theorem set_of_fits {c : Cache} {k : String} {v : Buf} (h : ¬ c.maxSize < v.length) :
    c.set k v =
      { (c.delete k).2.free v.length with
          size := ((c.delete k).2.free v.length).size + v.length,
          data := mapSet k v ((c.delete k).2.free v.length).data,
          accessCount := mapSet k ((mapLookup k c.accessCount).getD 0)
            ((c.delete k).2.free v.length).accessCount } := by
  simp [Cache.set, h]

theorem inv_get {c : Cache} (h : Inv c) (k : String) : Inv (c.get k).2 := by
  cases hl : mapLookup k c.data with
  | none => rw [get_of_lookup_none hl]; exact h
  | some v =>
    rw [get_of_lookup_some hl]
    refine ⟨h.nodupData, nodup_keys_mapSet _ _ _ h.nodupAC, ?_, h.sizeEq, h.sizeLe⟩
    intro a ha
    have h2 := h.subset a ha
    simp only [mapHas_iff_mem_keys] at h2 ⊢
    exact (mem_keys_mapSet _ _ _ _).2 (Or.inr h2)

theorem inv_set {c : Cache} (h : Inv c) (k : String) (v : Buf) : Inv (c.set k v) := by
  by_cases hs : c.maxSize < v.length
  · rw [set_of_oversize hs]; exact h
  · rw [set_of_fits hs]
    have h2 : Inv ((c.delete k).2.free v.length) := inv_free (inv_delete h k) v.length
    have hkd : mapLookup k ((c.delete k).2.free v.length).data = none :=
      free_lookup_none_data _ (delete_lookup_self_data c k)
    have hkmem : k ∉ ((c.delete k).2.free v.length).data.map Prod.fst := by
      intro hm
      obtain ⟨w, hw⟩ := mapLookup_isSome_of_mem_keys hm
      rw [hkd] at hw
      cases hw
    have hdata : mapSet k v ((c.delete k).2.free v.length).data =
        ((c.delete k).2.free v.length).data ++ [(k, v)] := mapSet_of_not_mem _ _ _ hkmem
    refine ⟨?_, ?_, ?_, ?_, ?_⟩
    · exact nodup_keys_mapSet _ _ _ h2.nodupData
    · exact nodup_keys_mapSet _ _ _ h2.nodupAC
    · intro a ha
      simp only [mapHas_iff_mem_keys, mem_keys_mapSet] at ha ⊢
      rcases ha with ha | ha
      · exact Or.inl ha
      · refine Or.inr ?_
        have h3 := h2.subset a ((mapHas_iff_mem_keys _ _).2 ha)
        exact (mapHas_iff_mem_keys _ _).1 h3
    · simp only
      rw [hdata, sumLen_append, h2.sizeEq, sumLen_cons]
      simp [sumLen]
    · simp only
      rcases free_capacity_or_nil (inv_delete h k) v.length with hcap | hnil
      · simp only [Cache.hasCapacity, decide_eq_true_eq, ge_iff_le] at hcap
        linarith
      · have h0 : ((c.delete k).2.free v.length).size = 0 := by
          rw [h2.sizeEq, hnil]
          rfl
        rw [h0]
        have hm : ((c.delete k).2.free v.length).maxSize = c.maxSize := by
          rw [free_maxSize, delete_maxSize]
        rw [hm]
        push_neg at hs
        simpa using (Int.ofNat_le.2 hs)

theorem inv_rename {c : Cache} (h : Inv c) (a b : String) : Inv (c.rename a b).2 := by
  by_cases h1 : mapHas a c.data = true
  · by_cases h2 : mapHas b c.data = true
    · rw [rename_of_new_present h1 h2]; exact h
    · have h2f : mapHas b c.data = false := by simpa using h2
      rw [rename_of_success h1 h2f]
      obtain ⟨v, hv⟩ : ∃ v, mapLookup a c.data = some v := by
        rw [mapHas, Option.isSome_iff_exists] at h1
        exact h1
      have hab : a ≠ b := by
        intro he
        rw [he, h2f] at h1
        cases h1
      have hbmem : b ∉ c.data.map Prod.fst := by
        intro hm
        rw [(mapHas_iff_mem_keys b c.data).2 hm] at h2f
        cases h2f
      have hgetd : (mapLookup a c.data).getD [] = v := by rw [hv]; rfl
      have hset : mapSet b ((mapLookup a c.data).getD []) c.data =
          c.data ++ [(b, (mapLookup a c.data).getD [])] := mapSet_of_not_mem _ _ _ hbmem
      have hlook : mapLookup a (mapSet b ((mapLookup a c.data).getD []) c.data) = some v := by
        rw [mapLookup_mapSet_ne _ _ hab, hv]
      refine ⟨?_, ?_, ?_, ?_, ?_⟩
      · exact nodup_keys_mapDelete _ _ (nodup_keys_mapSet _ _ _ h.nodupData)
      · exact nodup_keys_mapSet _ _ _ h.nodupAC
      · intro x hx
        simp only [mapHas_iff_mem_keys, keys_mapDelete, List.mem_filter,
                   mem_keys_mapSet, decide_eq_true_eq] at hx
        simp only [mapHas_iff_mem_keys, mem_keys_mapSet]
        rcases hx.1 with hx1 | hx1
        · exact Or.inl hx1
        · refine Or.inr ?_
          exact (mapHas_iff_mem_keys _ _).1 (h.subset x ((mapHas_iff_mem_keys _ _).2 hx1))
      · simp only
        rw [sumLen_mapDelete (nodup_keys_mapSet _ _ _ h.nodupData) hlook,
            hset, sumLen_append, hgetd, h.sizeEq]
        simp [sumLen]
      · exact h.sizeLe
  · have h1f : mapHas a c.data = false := by simpa using h1
    rw [rename_of_old_absent h1f]
    exact h

theorem inv_clear {c : Cache} (_ : Inv c) : Inv c.clear := by
  refine ⟨by simp [Cache.clear], by simp [Cache.clear], ?_,
          by simp [Cache.clear, sumLen], by simp [Cache.clear]⟩
  intro k hk
  simp [Cache.clear, mapHas, mapLookup] at hk

/-- The states a `Cache` instance can be in: freshly constructed, or the
result of any public mutating operation applied to a reachable state. -/
inductive Reachable : Cache → Prop where
  | new (maxSize : Nat) : Reachable (Cache.new maxSize)
  | get (c : Cache) (k : String) : Reachable c → Reachable (c.get k).2
  | set (c : Cache) (k : String) (v : Buf) : Reachable c → Reachable (c.set k v)
  | rename (c : Cache) (a b : String) : Reachable c → Reachable (c.rename a b).2
  | delete (c : Cache) (k : String) : Reachable c → Reachable (c.delete k).2
  | clear (c : Cache) : Reachable c → Reachable c.clear

theorem reachable_inv {c : Cache} (h : Reachable c) : Inv c := by
  induction h with
  | new m => exact inv_new m
  | get c k _ ih => exact inv_get ih k
  | set c k v _ ih => exact inv_set ih k v
  | rename c a b _ ih => exact inv_rename ih a b
  | delete c k _ ih => exact inv_delete ih k
  | clear c _ ih => exact inv_clear ih

theorem sumLen_le_of_mem {k : String} {v : Buf} {d : List (String × Buf)}
    (h : (k, v) ∈ d) : (v.length : Int) ≤ sumLen d := by
  induction d with
  | nil => simp at h
  | cons p rest ih =>
    rw [sumLen_cons]
    rcases List.mem_cons.1 h with h1 | h1
    · rw [← h1]
      have h2 := sumLen_nonneg rest
      simp only
      linarith
    · have h2 := ih h1
      have h3 : (0 : Int) ≤ (p.2.length : Int) := by positivity
      linarith

/-! ### The claims -/

/-- C1: for every sequence of public operations with valid-typed arguments,
after each operation returns, `#size` equals the sum of the byte lengths of
all stored values, and `#size` is at most `#maxSize`. -/
theorem claim_C1_size_invariant {c : Cache} (h : Reachable c) :
    c.size = sumLen c.data ∧ c.size ≤ (c.maxSize : Int) :=
  ⟨(reachable_inv h).sizeEq, (reachable_inv h).sizeLe⟩

theorem claim_C1_witness :
    ((Cache.new 10).set "a" [1, 2]).size = sumLen ((Cache.new 10).set "a" [1, 2]).data ∧
    ((Cache.new 10).set "a" [1, 2]).size ≤ (((Cache.new 10).set "a" [1, 2]).maxSize : Int) :=
  claim_C1_size_invariant (Reachable.set (Cache.new 10) "a" [1, 2] (Reachable.new 10))

/-- C5: a `set` whose value is strictly larger than `#maxSize` is a silent
no-op: no error, and the whole cache state (data, access counts, size) is
returned unchanged. -/
theorem claim_C5_oversize_noop (c : Cache) (k : String) (v : Buf)
    (h : c.maxSize < v.length) : c.set k v = c :=
  set_of_oversize h

theorem claim_C5_witness : (Cache.new 2).set "k" [1, 2, 3] = Cache.new 2 :=
  claim_C5_oversize_noop (Cache.new 2) "k" [1, 2, 3] (by decide)

/-- C7: `set k v` immediately followed by `get k` returns `v` whenever
`v` can fit (`v.length ≤ maxSize`); when `v` is oversized and `k` was
absent, the subsequent `get k` returns `none`. -/
theorem claim_C7_round_trip (c : Cache) (k : String) (v : Buf) :
    (v.length ≤ c.maxSize → ((c.set k v).get k).1 = some v) ∧
    (c.maxSize < v.length → mapLookup k c.data = none → ((c.set k v).get k).1 = none) := by
  constructor
  · intro h
    have h2 : ¬ c.maxSize < v.length := not_lt.2 h
    rw [set_of_fits h2]
    have hlook : mapLookup k
        (mapSet k v ((c.delete k).2.free v.length).data) = some v :=
      mapLookup_mapSet_self k v _
    rw [get_of_lookup_some hlook]
  · intro h h2
    rw [set_of_oversize h, get_of_lookup_none h2]

theorem claim_C7_witness :
    (((Cache.new 10).set "a" [1, 2]).get "a").1 = some [1, 2] ∧
    (((Cache.new 1).set "b" [1, 2]).get "b").1 = none :=
  ⟨(claim_C7_round_trip (Cache.new 10) "a" [1, 2]).1 (by decide),
   (claim_C7_round_trip (Cache.new 1) "b" [1, 2]).2 (by decide) (by decide)⟩

/-- C8: `get` on an absent key returns `none` and changes nothing; `get` on
a present key returns the stored value, increments exactly that key's
access count by 1, and leaves `#data`, `#size`, `#maxSize` and every other
access count unchanged (in particular it never evicts). -/
theorem claim_C8_get_characterization (c : Cache) (k : String) :
    (mapLookup k c.data = none → c.get k = (none, c)) ∧
    (∀ v n, mapLookup k c.data = some v → mapLookup k c.accessCount = some n →
       (c.get k).1 = some v ∧
       (c.get k).2.data = c.data ∧
       (c.get k).2.size = c.size ∧
       (c.get k).2.maxSize = c.maxSize ∧
       mapLookup k (c.get k).2.accessCount = some (n + 1) ∧
       (∀ x, x ≠ k → mapLookup x (c.get k).2.accessCount = mapLookup x c.accessCount)) := by
  constructor
  · exact fun h => get_of_lookup_none h
  · intro v n hv hn
    rw [get_of_lookup_some hv]
    refine ⟨rfl, rfl, rfl, rfl, ?_, ?_⟩
    · simp only
      rw [mapLookup_mapSet_self, hn]
      rfl
    · intro x hx
      simp only
      rw [mapLookup_mapSet_ne _ _ hx]

theorem claim_C8_witness :
    (Cache.new 5).get "x" = (none, Cache.new 5) ∧
    (((Cache.new 5).set "a" [3]).get "a").1 = some [3] :=
  ⟨(claim_C8_get_characterization (Cache.new 5) "x").1 (by decide),
   ((claim_C8_get_characterization ((Cache.new 5).set "a" [3]) "a").2 [3] 0
      (by decide) (by decide)).1⟩

/-- C9: every public operation checks its argument types before touching any
state: a non-string key (for get, has, delete, set, rename), a non-Buffer
value (for set), or a capacity that is not a nonnegative safe integer (at
construction) raises a `TypeError` synchronously with the cache state
returned unchanged. -/
theorem claim_C9_type_errors (c : Cache) (key value newKey n : JSVal) :
    (key.isStr = false →
       c.getJS key = (.error "Expected key to be a String", c) ∧
       c.hasJS key = (.error "Expected key to be a String", c) ∧
       c.deleteJS key = (.error "Expected key to be a String", c) ∧
       c.setJS key value = (.error "Expected key to be a String", c) ∧
       c.renameJS key newKey = (.error "Expected oldKey to be a String", c)) ∧
    (key.isStr = true → value.isBuf = false →
       c.setJS key value = (.error "Expected value to be an instance of Buffer", c)) ∧
    (key.isStr = true → newKey.isStr = false →
       c.renameJS key newKey = (.error "Expected newKey to be a String", c)) ∧
    ((∀ m : Int, n = JSVal.int m → m < 0) →
       Cache.construct n = .error "Expected maxSize to be a positive Integer") := by
  refine ⟨?_, ?_, ?_, ?_⟩
  · intro hk
    cases key with
    | str s => simp [JSVal.isStr] at hk
    | int m => exact ⟨rfl, rfl, rfl, rfl, rfl⟩
    | nonIntNum => exact ⟨rfl, rfl, rfl, rfl, rfl⟩
    | buf b => exact ⟨rfl, rfl, rfl, rfl, rfl⟩
    | other => exact ⟨rfl, rfl, rfl, rfl, rfl⟩
  · intro hk hv
    cases key with
    | str s =>
      cases value with
      | buf b => simp [JSVal.isBuf] at hv
      | str t => rfl
      | int m => rfl
      | nonIntNum => rfl
      | other => rfl
    | int m => simp [JSVal.isStr] at hk
    | nonIntNum => simp [JSVal.isStr] at hk
    | buf b => simp [JSVal.isStr] at hk
    | other => simp [JSVal.isStr] at hk
  · intro hk hn
    cases key with
    | str s =>
      cases newKey with
      | str t => simp [JSVal.isStr] at hn
      | int m => rfl
      | nonIntNum => rfl
      | buf b => rfl
      | other => rfl
    | int m => simp [JSVal.isStr] at hk
    | nonIntNum => simp [JSVal.isStr] at hk
    | buf b => simp [JSVal.isStr] at hk
    | other => simp [JSVal.isStr] at hk
  · intro hm
    cases n with
    | int m =>
      have h2 : m < 0 := hm m rfl
      simp [Cache.construct, h2]
    | str s => rfl
    | nonIntNum => rfl
    | buf b => rfl
    | other => rfl

theorem claim_C9_witness :
    (Cache.new 7).getJS (JSVal.int 123) =
      (.error "Expected key to be a String", Cache.new 7) ∧
    (Cache.new 7).setJS (JSVal.str "k") (JSVal.str "notBytes") =
      (.error "Expected value to be an instance of Buffer", Cache.new 7) ∧
    Cache.construct JSVal.nonIntNum =
      .error "Expected maxSize to be a positive Integer" :=
  ⟨((claim_C9_type_errors (Cache.new 7) (JSVal.int 123) JSVal.other JSVal.other
      JSVal.other).1 (by decide)).1,
   (claim_C9_type_errors (Cache.new 7) (JSVal.str "k") (JSVal.str "notBytes")
      JSVal.other JSVal.other).2.1 (by decide) (by decide),
   (claim_C9_type_errors (Cache.new 7) JSVal.other JSVal.other JSVal.other
      JSVal.nonIntNum).2.2.2 (by intro m hm; cases hm)⟩

/-- C10: `keys()` reflects most-recent insertion: a fitting `set` of a key
puts that key at the end of the key sequence as its only occurrence
(whether it was present before or not), and a successful `rename` produces
the old key sequence with `oldKey` removed and `newKey` appended at the
end. -/
theorem claim_C10_keys_move_to_end (c : Cache) (k oldKey newKey : String) (v : Buf) :
    (¬ c.maxSize < v.length →
       ∃ l, (c.set k v).keys = l ++ [k] ∧ k ∉ l) ∧
    (mapHas oldKey c.data = true → mapHas newKey c.data = false →
       (c.rename oldKey newKey).2.keys =
         (c.keys.filter (fun x => x ≠ oldKey)) ++ [newKey]) := by
  constructor
  · intro h
    rw [set_of_fits h]
    have hkd : mapLookup k ((c.delete k).2.free v.length).data = none :=
      free_lookup_none_data _ (delete_lookup_self_data c k)
    have hkmem : k ∉ ((c.delete k).2.free v.length).data.map Prod.fst := by
      intro hm
      obtain ⟨w, hw⟩ := mapLookup_isSome_of_mem_keys hm
      rw [hkd] at hw
      cases hw
    refine ⟨((c.delete k).2.free v.length).data.map Prod.fst, ?_, hkmem⟩
    simp only [Cache.keys, mapSet_of_not_mem _ _ _ hkmem, List.map_append]
    rfl
  · intro h1 h2
    rw [rename_of_success h1 h2]
    have hab : oldKey ≠ newKey := by
      intro he
      rw [he, h2] at h1
      cases h1
    have hbmem : newKey ∉ c.data.map Prod.fst := by
      intro hm
      rw [(mapHas_iff_mem_keys newKey c.data).2 hm] at h2
      cases h2
    simp only [Cache.keys, keys_mapDelete, mapSet_of_not_mem _ _ _ hbmem,
               List.map_append, List.filter_append]
    congr 1
    have : newKey ≠ oldKey := fun he => hab he.symm
    simp [this]

theorem claim_C10_witness :
    (∃ l, ((((Cache.new 10).set "a" [1]).set "b" [2]).set "a" [9]).keys = l ++ ["a"] ∧
       "a" ∉ l) ∧
    (((((Cache.new 10).set "a" [1]).set "b" [2]).rename "a" "c").2.keys =
       ((((Cache.new 10).set "a" [1]).set "b" [2]).keys.filter (fun x => x ≠ "a")) ++ ["c"]) :=
  ⟨(claim_C10_keys_move_to_end (((Cache.new 10).set "a" [1]).set "b" [2])
      "a" "x" "y" [9]).1 (by decide),
   (claim_C10_keys_move_to_end (((Cache.new 10).set "a" [1]).set "b" [2])
      "k" "a" "c" [9]).2 (by decide) (by decide)⟩

/-- C2 counterexample: the claim says a capacity-0 cache never holds any
entry after any `Set`, including a zero-length Buffer.  In the code the
admission check is `maxSize < value.length`, which is `0 < 0 = false` for a
zero-length value, so `set "k" []` on a capacity-0 cache stores the entry. -/
theorem claim_C2_counterexample :
    ((Cache.new 0).set "k" []).has "k" = true ∧ ((Cache.new 0).set "k" []).data ≠ [] := by
  decide

/-- C2 amended: for a cache constructed with capacity 0, a `Set` with a
value of length at least 1 leaves the cache unchanged (so it never holds an
entry of nonzero length, and indeed never holds one at all if only such
values are offered), but a `Set` with a zero-length Buffer does store an
entry, with `size` remaining 0. -/
theorem claim_C2_disabled_cache {c : Cache} (hr : Reachable c) (h0 : c.maxSize = 0)
    (k : String) (v : Buf) :
    (0 < v.length → c.set k v = c) ∧
    (v.length = 0 → (c.set k v).has k = true ∧ (c.set k v).size = 0) ∧
    (∀ a w, mapLookup a c.data = some w → w.length = 0) := by
  have hInv := reachable_inv hr
  have hle : c.size ≤ 0 := by
    have h2 := hInv.sizeLe
    rw [h0] at h2
    simpa using h2
  have hge : (0 : Int) ≤ c.size := by
    rw [hInv.sizeEq]
    exact sumLen_nonneg _
  have hsize0 : c.size = 0 := le_antisymm hle hge
  have hzero : ∀ a w, mapLookup a c.data = some w → w.length = 0 := by
    intro a w hw
    have hmem := mem_of_mapLookup_eq_some hw
    have h1 : (w.length : Int) ≤ sumLen c.data := sumLen_le_of_mem hmem
    rw [← hInv.sizeEq, hsize0] at h1
    have h2 : (w.length : Int) = 0 := le_antisymm h1 (by positivity)
    exact_mod_cast h2
  refine ⟨?_, ?_, hzero⟩
  · intro hv
    apply set_of_oversize
    rw [h0]
    exact hv
  · intro hv
    have hfit : ¬ c.maxSize < v.length := by rw [h0, hv]; simp
    rw [set_of_fits hfit]
    have hs1 : (c.delete k).2.size = 0 := by
      cases hl : mapLookup k c.data with
      | none => rw [delete_of_lookup_none hl]; exact hsize0
      | some w =>
        rw [delete_of_lookup_some hl]
        simp only
        rw [hzero k w hl, hsize0]
        simp
    have hm1 : (c.delete k).2.maxSize = c.maxSize := delete_maxSize c k
    have hcap : (c.delete k).2.hasCapacity v.length = true := by
      simp only [Cache.hasCapacity]
      rw [hs1, hm1, h0, hv]
      decide
    have hfree : (c.delete k).2.free v.length = (c.delete k).2 := by
      rw [Cache.free, if_pos hcap]
    rw [hfree]
    constructor
    · simp [Cache.has, mapHas, mapLookup_mapSet_self]
    · simp only
      rw [hs1, hv]
      simp

theorem claim_C2_witness :
    ((Cache.new 0).set "k" [1] = Cache.new 0) ∧
    ((Cache.new 0).set "k" []).has "k" = true :=
  ⟨(claim_C2_disabled_cache (Reachable.new 0) rfl "k" [1]).1 (by decide),
   ((claim_C2_disabled_cache (Reachable.new 0) rfl "k" []).2.1 rfl).1⟩

/-- C3 counterexample: after `set "a"`, one `get "a"` (frequency 1) and a
successful `rename "a" "b"`, the access-count record of the old key `"a"`
is still present (with its old count 1).  The claim states that rename
removes the old key including its frequency record. -/
theorem claim_C3_counterexample :
    ((((Cache.new 10).set "a" [7]).get "a").2.rename "a" "b").1 = true ∧
    mapLookup "a"
      ((((Cache.new 10).set "a" [7]).get "a").2.rename "a" "b").2.accessCount = some 1 := by
  decide

/-- C3 amended: `rename` returns false with no mutation when the old key is
absent or the new key exists; otherwise it moves the value and the
frequency counter to the new key, removes the old key from the data map —
but leaves the old key's access-count record behind (so the old key does
NOT behave as a brand-new key for a later `set`) — returns true, and leaves
`size` unchanged. -/
theorem claim_C3_rename_characterization (c : Cache) (oldKey newKey : String) :
    (mapHas oldKey c.data = false → c.rename oldKey newKey = (false, c)) ∧
    (mapHas oldKey c.data = true → mapHas newKey c.data = true →
       c.rename oldKey newKey = (false, c)) ∧
    (∀ v, mapLookup oldKey c.data = some v → mapHas newKey c.data = false →
       (c.rename oldKey newKey).1 = true ∧
       mapLookup newKey (c.rename oldKey newKey).2.data = some v ∧
       mapLookup oldKey (c.rename oldKey newKey).2.data = none ∧
       mapLookup newKey (c.rename oldKey newKey).2.accessCount =
         some ((mapLookup oldKey c.accessCount).getD 0) ∧
       mapLookup oldKey (c.rename oldKey newKey).2.accessCount =
         mapLookup oldKey c.accessCount ∧
       (∀ x, x ≠ oldKey → x ≠ newKey →
          mapLookup x (c.rename oldKey newKey).2.data = mapLookup x c.data ∧
          mapLookup x (c.rename oldKey newKey).2.accessCount = mapLookup x c.accessCount) ∧
       (c.rename oldKey newKey).2.size = c.size) := by
  refine ⟨fun h => rename_of_old_absent h, fun h1 h2 => rename_of_new_present h1 h2, ?_⟩
  intro v hv h2
  have h1 : mapHas oldKey c.data = true := by rw [mapHas, hv]; rfl
  have hab : oldKey ≠ newKey := by
    intro he
    rw [he, h2] at h1
    cases h1
  rw [rename_of_success h1 h2]
  refine ⟨rfl, ?_, ?_, ?_, ?_, ?_, rfl⟩
  · simp only
    rw [mapLookup_mapDelete_ne _ (fun he => hab he.symm), mapLookup_mapSet_self, hv]
    rfl
  · simp only
    exact mapLookup_mapDelete_self _ _
  · simp only
    exact mapLookup_mapSet_self _ _ _
  · simp only
    rw [mapLookup_mapSet_ne _ _ hab]
  · intro x hxo hxn
    refine ⟨?_, ?_⟩
    · simp only
      rw [mapLookup_mapDelete_ne _ hxo, mapLookup_mapSet_ne _ _ hxn]
    · simp only
      rw [mapLookup_mapSet_ne _ _ hxn]

theorem claim_C3_witness :
    mapLookup "b" (((Cache.new 10).set "a" [7]).rename "a" "b").2.data = some [7] :=
  ((claim_C3_rename_characterization ((Cache.new 10).set "a" [7]) "a" "b").2.2 [7]
     (by decide) (by decide)).2.1

/-- C4 counterexample: `"a"` is absent from the cache (its entry was
renamed to `"b"`), yet a fresh `set "a"` starts with frequency 1 — the
stale access-count record left by `rename` is picked up — where the claim
requires frequency 0 for a key absent at the time of the call. -/
theorem claim_C4_counterexample :
    mapHas "a" ((((Cache.new 10).set "a" [7]).get "a").2.rename "a" "b").2.data = false ∧
    mapLookup "a"
      (((((Cache.new 10).set "a" [7]).get "a").2.rename "a" "b").2.set "a" [9]).accessCount =
      some 1 := by
  decide

/-- C4 amended: a fitting `set k v` gives the new entry the frequency of
the existing access-count record for `k` (0 when there is none).  A key
present in the cache therefore retains its frequency on overwrite, but a
key absent from the cache can still inherit a nonzero stale frequency when
`rename` previously moved it away without deleting its record. -/
theorem claim_C4_set_frequency (c : Cache) (k : String) (v : Buf)
    (h : ¬ c.maxSize < v.length) :
    mapLookup k (c.set k v).accessCount = some ((mapLookup k c.accessCount).getD 0) := by
  rw [set_of_fits h]
  exact mapLookup_mapSet_self _ _ _

theorem claim_C4_witness :
    mapLookup "a" ((Cache.new 10).set "a" [1]).accessCount = some 0 :=
  claim_C4_set_frequency (Cache.new 10) "a" [1] (by decide)

/-! ### LFU eviction order (claim C6) -/

/-- Key `a` appears strictly before key `b` in the iteration order of the
frequency table `m`. -/
def keysBefore (m : List (String × Nat)) (a b : String) : Prop :=
  List.Sublist [a, b] (m.map Prod.fst)

/-- The frequency counter the eviction logic sees for key `k` (0 when
there is no record). -/
def Cache.freqOf (c : Cache) (k : String) : Nat :=
  (mapLookup k c.accessCount).getD 0

/-- `k` is a stored key of minimal eviction priority in `c`: every other
stored key has a strictly larger frequency, or an equal frequency and a
strictly later position in the insertion-ordered frequency table. -/
def IsLFUMin (c : Cache) (k : String) : Prop :=
  mapHas k c.data = true ∧
  ∀ a, mapHas a c.data = true → a ≠ k →
    c.freqOf k < c.freqOf a ∨
    (c.freqOf k = c.freqOf a ∧ keysBefore c.accessCount k a)

/-- The eviction behaviour the spec describes for `#free`: from state `c`,
while the needed size does not fit, delete the single stored entry of
minimal frequency (ties broken by the earliest position in the frequency
table), and stop as soon as the needed size fits or no entries remain. -/
inductive FreeSpec (needed : Nat) : Cache → Cache → Prop where
  | done (c : Cache) :
      c.hasCapacity needed = true ∨ c.data = [] → FreeSpec needed c c
  | evict (c c2 : Cache) (k : String) :
      c.hasCapacity needed = false → IsLFUMin c k →
      FreeSpec needed (c.delete k).2 c2 → FreeSpec needed c c2

theorem delete_lookup_ne_ac {c : Cache} {a k : String} (h : a ≠ k) :
    mapLookup a (c.delete k).2.accessCount = mapLookup a c.accessCount := by
  cases hl : mapLookup k c.data with
  | none => rw [delete_of_lookup_none hl]
  | some v => rw [delete_of_lookup_some hl]; exact mapLookup_mapDelete_ne _ h

theorem keysBefore_delete {c : Cache} {x y k : String} (h : keysBefore c.accessCount x y)
    (hx : x ≠ k) (hy : y ≠ k) : keysBefore (c.delete k).2.accessCount x y := by
  cases hl : mapLookup k c.data with
  | none => rw [delete_of_lookup_none hl]; exact h
  | some v =>
    rw [delete_of_lookup_some hl]
    rw [keysBefore] at h ⊢
    simp only [keys_mapDelete]
    have h2 := List.Sublist.filter (fun a => decide ¬(a = k)) h
    have h3 : List.filter (fun a => decide ¬(a = k)) [x, y] = [x, y] := by
      simp [hx, hy]
    rw [h3] at h2
    simpa using h2

theorem pair_sublist_total {α : Type} {a b : α} {l : List α}
    (ha : a ∈ l) (hb : b ∈ l) (hne : a ≠ b) :
    List.Sublist [a, b] l ∨ List.Sublist [b, a] l := by
  induction l with
  | nil => simp at ha
  | cons x xs ih =>
    by_cases hxa : x = a
    · left
      have hbx : b ∈ xs := by
        rcases List.mem_cons.1 hb with h1 | h1
        · exact absurd (h1.trans hxa).symm hne
        · exact h1
      rw [← hxa]
      exact (List.singleton_sublist.2 hbx).cons₂ x
    · by_cases hxb : x = b
      · right
        have hax : a ∈ xs := by
          rcases List.mem_cons.1 ha with h1 | h1
          · exact absurd h1.symm hxa
          · exact h1
        rw [← hxb]
        exact (List.singleton_sublist.2 hax).cons₂ x
      · have ha2 : a ∈ xs := by
          rcases List.mem_cons.1 ha with h1 | h1
          · exact absurd h1.symm hxa
          · exact h1
        have hb2 : b ∈ xs := by
          rcases List.mem_cons.1 hb with h1 | h1
          · exact absurd h1.symm hxb
          · exact h1
        rcases ih ha2 hb2 with h | h
        · exact Or.inl (h.cons x)
        · exact Or.inr (h.cons x)

theorem sublist_pair_antisymm {α : Type} {a b : α} {l : List α} (hnd : l.Nodup)
    (h1 : List.Sublist [a, b] l) (h2 : List.Sublist [b, a] l) : a = b := by
  induction l with
  | nil => cases h1
  | cons x xs ih =>
    rw [List.nodup_cons] at hnd
    cases h1 with
    | cons y h1 =>
      cases h2 with
      | cons z h2 => exact ih hnd.2 h1 h2
      | cons₂ z h2 =>
        exfalso
        exact hnd.1 (h1.subset (by simp))
    | cons₂ y h1 =>
      cases h2 with
      | cons z h2 =>
        exfalso
        exact hnd.1 (h2.subset (by simp))
      | cons₂ z h2 => rfl

/-- Stability of the eviction sort: two entries with equal counts appear in
the sorted array in the same relative order as in the frequency table. -/
theorem insertionSort_stable_eq {l : List (String × Nat)} {a b : String × Nat}
    (hnd : (l.map Prod.fst).Nodup) (hcnt : a.2 = b.2)
    (h : List.Sublist [a, b] (List.insertionSort cntLE l)) : List.Sublist [a, b] l := by
  have hndl : l.Nodup := List.Nodup.of_map Prod.fst hnd
  have hnds : (List.insertionSort cntLE l).Nodup :=
    ((List.perm_insertionSort cntLE l).nodup_iff).2 hndl
  have hma : a ∈ l := (List.mem_insertionSort cntLE).1 (h.subset (by simp))
  have hmb : b ∈ l := (List.mem_insertionSort cntLE).1 (h.subset (by simp))
  have hne : a ≠ b := by
    intro he
    rw [he] at h
    have h4 : List.Nodup [b, b] := h.nodup hnds
    simp at h4
  rcases pair_sublist_total hma hmb hne with h1 | h1
  · exact h1
  · exfalso
    have h2 : List.Sublist [b, a] (List.insertionSort cntLE l) :=
      List.pair_sublist_insertionSort (le_of_eq hcnt.symm) h1
    exact hne (sublist_pair_antisymm hnds h h2)

/-- The deletion loop of `#free` implements `FreeSpec`, given that the
sorted array `S` covers all stored keys, is sorted by count, has unique
keys, reports the counts the cache holds, and lists equal-count entries in
frequency-table order. -/
theorem freeLoop_freeSpec (needed : Nat) (S : List (String × Nat)) :
    ∀ (c : Cache),
    (∀ a, mapHas a c.data = true → a ∈ S.map Prod.fst) →
    S.Pairwise cntLE →
    (S.map Prod.fst).Nodup →
    (∀ p, p ∈ S → mapLookup p.1 c.accessCount = some p.2) →
    (∀ a b : String × Nat, List.Sublist [a, b] S → a.2 = b.2 →
        keysBefore c.accessCount a.1 b.1) →
    FreeSpec needed c (c.freeLoop needed S) := by
  induction S with
  | nil =>
    intro c hsub _ _ _ _
    rw [Cache.freeLoop]
    refine FreeSpec.done c (Or.inr ?_)
    by_contra hne
    obtain ⟨p, rest, hd⟩ : ∃ p rest, c.data = p :: rest := by
      cases hd : c.data with
      | nil => exact absurd hd hne
      | cons p rest => exact ⟨p, rest, rfl⟩
    have hmem : mapHas p.1 c.data = true := by
      rw [mapHas, hd, mapLookup]
      simp
    simpa using hsub p.1 hmem
  | cons p rest ih =>
    intro c hsub hpw hnd hcnt hstab
    rw [Cache.freeLoop]
    by_cases hcap : c.hasCapacity needed = true
    · rw [if_pos hcap]
      exact FreeSpec.done c (Or.inl hcap)
    · rw [if_neg hcap]
      have hcapf : c.hasCapacity needed = false := by
        cases h : c.hasCapacity needed
        · rfl
        · exact absurd h hcap
      rw [List.map_cons, List.nodup_cons] at hnd
      rw [List.pairwise_cons] at hpw
      cases hl : mapLookup p.1 c.data with
      | none =>
        have hdel : (c.delete p.1).2 = c := by rw [delete_of_lookup_none hl]
        rw [hdel]
        refine ih c ?_ hpw.2 hnd.2 ?_ ?_
        · intro a ha
          have h1 := hsub a ha
          rw [List.map_cons, List.mem_cons] at h1
          rcases h1 with h1 | h1
          · exfalso
            rw [h1, mapHas, hl] at ha
            simp at ha
          · exact h1
        · exact fun q hq => hcnt q (List.mem_cons_of_mem p hq)
        · exact fun a b hab he => hstab a b (hab.cons p) he
      | some w =>
        have hdata : mapHas p.1 c.data = true := by rw [mapHas, hl]; rfl
        have hfp : c.freqOf p.1 = p.2 := by
          rw [Cache.freqOf, hcnt p (List.mem_cons_self p rest)]
          rfl
        refine FreeSpec.evict c _ p.1 hcapf ⟨hdata, ?_⟩ ?_
        · intro a ha hne
          have h1 := hsub a ha
          rw [List.map_cons, List.mem_cons] at h1
          rcases h1 with h1 | h1
          · exact absurd h1 hne
          · obtain ⟨q, hq, hq1⟩ := List.mem_map.1 h1
            have hfa : c.freqOf a = q.2 := by
              rw [Cache.freqOf, ← hq1, hcnt q (List.mem_cons_of_mem p hq)]
              rfl
            have hle : p.2 ≤ q.2 := hpw.1 q hq
            rcases lt_or_eq_of_le hle with hlt | heq
            · left
              rw [hfp, hfa]
              exact hlt
            · right
              refine ⟨by rw [hfp, hfa, heq], ?_⟩
              have hsubl : List.Sublist [p, q] (p :: rest) :=
                (List.singleton_sublist.2 hq).cons₂ p
              have h2 := hstab p q hsubl heq
              rw [hq1] at h2
              exact h2
        · refine ih (c.delete p.1).2 ?_ hpw.2 hnd.2 ?_ ?_
          · intro a ha
            have h2 := mapHas_delete_imp ha
            have h3 := hsub a h2.2
            rw [List.map_cons, List.mem_cons] at h3
            rcases h3 with h3 | h3
            · exact absurd h3 h2.1
            · exact h3
          · intro q hq
            have hqne : q.1 ≠ p.1 := by
              intro he
              apply hnd.1
              rw [← he]
              exact List.mem_map.2 ⟨q, hq, rfl⟩
            rw [delete_lookup_ne_ac hqne]
            exact hcnt q (List.mem_cons_of_mem p hq)
          · intro a b hab he
            have hane : a.1 ≠ p.1 := by
              intro h4
              apply hnd.1
              rw [← h4]
              exact List.mem_map.2 ⟨a, hab.subset (by simp), rfl⟩
            have hbne : b.1 ≠ p.1 := by
              intro h4
              apply hnd.1
              rw [← h4]
              exact List.mem_map.2 ⟨b, hab.subset (by simp), rfl⟩
            exact keysBefore_delete (hstab a b (hab.cons p) he) hane hbne

/-- C6: the eviction pass `#free` (called by `set` when room must be made)
repeatedly removes the single stored entry with the lowest frequency
counter until the needed size fits or no entries remain; among entries
sharing the minimum frequency, the one earliest in the insertion-ordered
frequency table is evicted first.  `FreeSpec` states exactly this step
discipline; eviction is deterministic because `free` is a function. -/
theorem claim_C6_lfu_eviction (c : Cache) (needed : Nat)
    (hnd : (c.accessCount.map Prod.fst).Nodup)
    (hsub : ∀ a, mapHas a c.data = true → mapHas a c.accessCount = true) :
    FreeSpec needed c (c.free needed) := by
  rw [Cache.free]
  by_cases hcap : c.hasCapacity needed = true
  · rw [if_pos hcap]
    exact FreeSpec.done c (Or.inl hcap)
  · rw [if_neg hcap]
    have hperm : List.Perm (List.insertionSort cntLE c.accessCount) c.accessCount :=
      List.perm_insertionSort cntLE c.accessCount
    refine freeLoop_freeSpec needed _ c ?_ ?_ ?_ ?_ ?_
    · intro a ha
      have h2 := (mapHas_iff_mem_keys a c.accessCount).1 (hsub a ha)
      exact ((hperm.map Prod.fst).mem_iff).2 h2
    · exact List.sorted_insertionSort cntLE c.accessCount
    · exact ((hperm.map Prod.fst).nodup_iff).2 hnd
    · intro q hq
      exact mapLookup_eq_some_of_mem hnd ((List.mem_insertionSort cntLE).1 hq)
    · intro a b hab he
      have h2 := insertionSort_stable_eq hnd he hab
      simpa [keysBefore] using h2.map Prod.fst

theorem claim_C6_witness :
    FreeSpec 4 ((Cache.new 5).set "a" [1, 2, 3])
      (((Cache.new 5).set "a" [1, 2, 3]).free 4) :=
  claim_C6_lfu_eviction ((Cache.new 5).set "a" [1, 2, 3]) 4
    (reachable_inv (Reachable.set (Cache.new 5) "a" [1, 2, 3] (Reachable.new 5))).nodupAC
    (reachable_inv (Reachable.set (Cache.new 5) "a" [1, 2, 3] (Reachable.new 5))).subset

end CacheModel
